import Mathlib

/-!
Verification of the Tracebound scanner (`src/main.py`).

The development shallowly embeds the core crawl-and-scan pipeline of the
`TraceboundScanner` class: the retrying `fetch`, the recursive
`parse_sitemap` resolver with its shared visit set, the per-page matching
of `scan_page`, and the coordinator logic of `run`.  Network I/O, XML
parsing, HTML text extraction and the compiled regular expression are
abstracted as function parameters (an `Env` record, a `script` of attempt
outcomes, an `extractText` function, a `search` function); the control
flow around them is translated line by line from the Python source.
-/

namespace Tracebound

/-! ### Python string primitives

Python `str.lower()`, `str.strip()` and the substring test `a in b`,
modelled over the character list underlying a Lean `String`. -/

/-- Python `str.lower()` (per-character lowering). -/
def pyLower (s : String) : String := ⟨s.data.map Char.toLower⟩

/-- Python `str.strip()` with no arguments: remove leading and trailing
whitespace. -/
def pyStrip (s : String) : String :=
  ⟨((s.data.dropWhile Char.isWhitespace).reverse.dropWhile Char.isWhitespace).reverse⟩

/-- Python substring containment `needle in hay` on strings. -/
def containsSub (needle hay : String) : Bool :=
  decide (needle.data <:+: hay.data)

/-- The test `"sitemap" in url_text.lower()` from `parse_sitemap`
(src/main.py line 129), deciding whether a `<loc>` entry is treated as a
nested sitemap reference. -/
def sitemapRef (u : String) : Bool := containsSub "sitemap" (pyLower u)

/-! ### The Fetcher (`TraceboundScanner.fetch`, src/main.py lines 91-107)

One network attempt either raises a network-level error
(`aiohttp.ClientError` / `asyncio.TimeoutError`) or completes with an HTTP
status and a body; a `script` assigns an outcome to each attempt number.
`fetch` returns the body it would hand to its caller (failure is signalled
by the empty string, as in the source), together with the number of
attempts performed and the list of `asyncio.sleep` durations, in order. -/

/-- Outcome of a single attempt inside `fetch`: a network-level error
(caught by the `except` clause) or an HTTP response. -/
inductive Attempt where
  | netErr : Attempt
  | resp (status : Nat) (body : String) : Attempt
  deriving DecidableEq

/-- What a `fetch` call produces: the returned body text, the number of
attempts that were performed, and the backoff waits that were slept,
in order. -/
structure FetchResult where
  body : String
  attempts : Nat
  waits : List Nat
  deriving DecidableEq

/-- Global default `RETRY_ATTEMPTS` (src/main.py line 25). -/
def RETRY_ATTEMPTS : Nat := 3

/-- Global `RETRY_BACKOFF` (src/main.py line 26); the code computes
`RETRY_BACKOFF * (2 ** (attempt - 1))` as the sleep before continuing.
The embedding keeps the base backoff as a parameter `backoff`. -/
def RETRY_BACKOFF : Nat := 1

/-- The `for attempt in range(1, retries + 1)` loop of `fetch`:
`left` counts the remaining iterations, `attempt` is the current attempt
number.  On a response the loop returns at once: the body text if the
status is 200, the empty string otherwise.  On a network error it sleeps
`backoff * 2 ^ (attempt - 1)` and continues; when the loop is exhausted,
`fetch` returns the empty string. -/
def fetchGo (script : Nat → Attempt) (backoff : Nat) : Nat → Nat → FetchResult
  | 0, _ => ⟨"", 0, []⟩
  | left + 1, attempt =>
    match script attempt with
    | .resp status body =>
      if status = 200 then ⟨body, 1, []⟩
      else ⟨"", 1, []⟩
    | .netErr =>
      let r := fetchGo script backoff left (attempt + 1)
      ⟨r.body, r.attempts + 1, backoff * 2 ^ (attempt - 1) :: r.waits⟩

/-- `TraceboundScanner.fetch(url, session, retries)`:
run the attempt loop starting at attempt 1. -/
def fetch (script : Nat → Attempt) (backoff retries : Nat) : FetchResult :=
  fetchGo script backoff retries 1

/-! ### The SitemapResolver (`TraceboundScanner.parse_sitemap`,
src/main.py lines 109-135, and `get_all_page_urls`, lines 137-154)

The network and the XML library are abstracted into an environment:
`fetchBody url` is the string a `fetch` of `url` returns (the empty
string on exhausted failure, exactly as the fetcher signals failure), and
`parseXML content` is the combined result of `ET.fromstring(content)` and
`root.findall(".//s:loc", ns)`: either a parse error (`ET.ParseError`,
caught by the code) or the list of the `<loc>` elements' `.text` values,
where `none` stands for a `<loc>` element without text content
(`loc.text is None`, on which the code's `loc.text.strip()` raises).

`parse_sitemap` threads the shared `self.visited_sitemaps` set and is
instrumented with the list of URLs it actually fetches, in order.  Its
result is `Except`-valued: `.error ()` models a propagating Python
exception (which discards the `urls` list built so far but keeps the
mutations of the visit set), `.ok pages` a normal return.  A recursion
budget `fuel` makes the unbounded Python recursion a total function:
`none` means the budget was exhausted, and termination of the source is
expressed by theorems producing `some` results from sufficient fuel.
The two seed sitemaps of `get_all_page_urls` are resolved sequentially
(the `asyncio.gather` interleaving is immaterial here because the
check-then-add on the visit set happens before the first await). -/

/-- The abstracted environment: what the network and the XML parser
return. -/
structure Env where
  fetchBody : String → String
  parseXML : String → Except Unit (List (Option String))

/-- Result state of one resolver call: the updated visit set, the trace of
URLs fetched during the call (in order), and either the collected page
URLs or a propagating exception. -/
abbrev RState := List String × List String × Except Unit (List String)

/-- The body of `parse_sitemap`.  `.inl url` is a call
`parse_sitemap(url)`; `.inr locs` is the `for loc in root.findall(...)`
loop over the remaining `<loc>` entries.  Each recursive step consumes one
unit of fuel. -/
def resolveStep (env : Env) : Nat → List String → Sum String (List (Option String)) →
    Option RState
  | 0, _, _ => none
  | n + 1, visited, .inl url =>
    if url ∈ visited then some (visited, [], .ok [])
    else
      let v := url :: visited
      let body := env.fetchBody url
      if body = "" then some (v, [url], .ok [])
      else
        match env.parseXML body with
        | .error _ => some (v, [url], .ok [])
        | .ok locs =>
          match resolveStep env n v (.inr locs) with
          | none => none
          | some (v', tr, r) => some (v', url :: tr, r)
  | _ + 1, visited, .inr [] => some (visited, [], .ok [])
  | _ + 1, visited, .inr (none :: _) => some (visited, [], .error ())
  | n + 1, visited, .inr (some t :: rest) =>
    let u := pyStrip t
    if sitemapRef u then
      match resolveStep env n visited (.inl u) with
      | none => none
      | some (v1, tr1, .error e) => some (v1, tr1, .error e)
      | some (v1, tr1, .ok ps1) =>
        match resolveStep env n v1 (.inr rest) with
        | none => none
        | some (v2, tr2, .error e) => some (v2, tr1 ++ tr2, .error e)
        | some (v2, tr2, .ok ps2) => some (v2, tr1 ++ tr2, .ok (ps1 ++ ps2))
    else
      match resolveStep env n visited (.inr rest) with
      | none => none
      | some (v', tr, .error e) => some (v', tr, .error e)
      | some (v', tr, .ok ps) => some (v', tr, .ok (u :: ps))

/-- `TraceboundScanner.parse_sitemap(sitemap_url, session)`. -/
def parse_sitemap (env : Env) (fuel : Nat) (visited : List String) (url : String) :
    Option RState :=
  resolveStep env fuel visited (.inl url)

/-- `TraceboundScanner.get_all_page_urls(session)`: resolve the two
conventional seed paths sharing one visit set, keep the page lists of the
seeds that returned normally (an exception from one seed is absorbed by
`asyncio.gather(..., return_exceptions=True)` and logged), and deduplicate
with `list(set(page_urls))`.  The result pairs the combined fetch trace
with the unique page URLs. -/
def get_all_page_urls (env : Env) (fuel : Nat) (base_url : String) :
    Option (List String × List String) :=
  match parse_sitemap env fuel [] (base_url ++ "/sitemap.xml") with
  | none => none
  | some (v1, tr1, r1) =>
    match parse_sitemap env fuel v1 (base_url ++ "/sitemap_index.xml") with
    | none => none
    | some (_, tr2, r2) =>
      let p1 := match r1 with | .ok l => l | .error _ => []
      let p2 := match r2 with | .ok l => l | .error _ => []
      some (tr1 ++ tr2, (p1 ++ p2).dedup)

/-! ### Termination of the resolver

The Python recursion is unbounded; it terminates because every recursive
call happens on a sitemap URL that was just added to the visit set, and
only URLs whose fetch and parse succeed recurse further.  With a finite
universe `U` of URLs that have fetchable documents, a fuel of
`|U| * (maxLocs + 1) + 1` always suffices. -/

/-- The `<loc>` entries of the document at `u`: empty when the fetch
fails (empty body) or the XML does not parse. -/
def locsOf (env : Env) (u : String) : List (Option String) :=
  if env.fetchBody u = "" then []
  else
    match env.parseXML (env.fetchBody u) with
    | .error _ => []
    | .ok locs => locs

/-- Number of universe URLs not yet visited. -/
def unseen (U visited : List String) : Nat :=
  (U.toFinset.filter (fun u => u ∉ visited)).card

/-- Largest `<loc>` list length over the universe. -/
def maxLocs (env : Env) (U : List String) : Nat :=
  (U.map (fun u => (locsOf env u).length)).foldr Nat.max 0

/-- Work measure of one resolver call. -/
def measureOf (env : Env) (U visited : List String) :
    Sum String (List (Option String)) → Nat
  | .inl _ => unseen U visited * (maxLocs env U + 1) + 1
  | .inr locs => unseen U visited * (maxLocs env U + 1) + locs.length + 1

/-- A fuel amount sufficient for any call made from any visit set. -/
def fuelBound (env : Env) (U : List String) : Nat :=
  U.toFinset.card * (maxLocs env U + 1) + 1

/-! ### Correctness of the resolver

The specification-level description of a sitemap collection: the
(stripped) `<loc>` values of the document at a URL, the sitemap-reference
reachability relation they induce, and the page URLs reachable from a set
of seeds. -/

/-- The stripped `<loc>` values of the document at `u` (empty when the
fetch fails or the XML does not parse, matching the code's `return []`). -/
def nodeLocs (env : Env) (u : String) : List String :=
  (locsOf env u).filterMap (fun o => o.map pyStrip)

/-- `Reaches env s w`: sitemap `w` is reachable from sitemap `s` by
following `<loc>` entries that the code treats as nested sitemap
references. -/
inductive Reaches (env : Env) : String → String → Prop where
  | refl (u : String) : Reaches env u u
  | step {u v w : String} : Reaches env u v → w ∈ nodeLocs env v →
      sitemapRef w = true → Reaches env u w

/-- A page URL (a non-sitemap `<loc>` value) listed by some sitemap
reachable from one of the seeds. -/
def PageReachable (env : Env) (seeds : List String) (p : String) : Prop :=
  ∃ s ∈ seeds, ∃ w, Reaches env s w ∧ p ∈ nodeLocs env w ∧ sitemapRef p = false

/-- An environment is well formed when no successfully parsed document
contains a `<loc>` element without text (the case on which the code
raises, see C9). -/
def WFEnv (env : Env) : Prop :=
  ∀ s locs, env.parseXML s = .ok locs → ∀ o ∈ locs, o ≠ none

/-- Admissible loop inputs: a `parse_sitemap` call is always admissible;
a loop over a list of `<loc>` entries is admissible when none of them
lacks text. -/
def OkEntries : Sum String (List (Option String)) → Prop
  | .inl _ => True
  | .inr locs => ∀ o ∈ locs, o ≠ none

/-- What a collected page URL means, relative to the call that collected
it: for a `parse_sitemap` call, a page listed by a sitemap reachable from
the call's URL; for a loop over `<loc>` entries, either a direct page
entry of the list or a page reachable through one of its sitemap
entries. -/
def SoundAt (env : Env) (inp : Sum String (List (Option String))) (p : String) : Prop :=
  match inp with
  | .inl url => ∃ w, Reaches env url w ∧ p ∈ nodeLocs env w ∧ sitemapRef p = false
  | .inr locs =>
      (∃ t, some t ∈ locs ∧ p = pyStrip t ∧ sitemapRef p = false) ∨
      (∃ t, some t ∈ locs ∧ sitemapRef (pyStrip t) = true ∧
        ∃ w, Reaches env (pyStrip t) w ∧ p ∈ nodeLocs env w ∧ sitemapRef p = false)

/-- A sitemap URL is closed in a visit set `V` with page list `P` when
all its sitemap references are in `V` and all its page entries are in
`P`. -/
def ClosedIn (env : Env) (V P : List String) (w : String) : Prop :=
  (∀ c ∈ nodeLocs env w, sitemapRef c = true → c ∈ V) ∧
  (∀ p ∈ nodeLocs env w, sitemapRef p = false → p ∈ P)

/-- The stripped entries of a `<loc>` list are accounted for: sitemap
references are in `V`, page entries are in `P`. -/
def EntryClosed (env : Env) (V P : List String) (locs : List (Option String)) : Prop :=
  ∀ t, some t ∈ locs →
    (sitemapRef (pyStrip t) = true → pyStrip t ∈ V) ∧
    (sitemapRef (pyStrip t) = false → pyStrip t ∈ P)

/-! ### The PageScanner (`TraceboundScanner.scan_page`,
src/main.py lines 156-175)

`extractText` abstracts `BeautifulSoup(content).get_text(...)`, `search`
abstracts `self.phrase_pattern.search` (the pattern compiled with
`re.IGNORECASE` in `__init__`), and `phraseLower` is `self.phrase_lower =
phrase.lower()` from `__init__`.  The value returned is whether the page
URL is appended to `self.found_urls`. -/

/-- The matching decision of `scan_page` (src/main.py lines 164-169):
regex mode searches the compiled case-insensitive pattern anywhere in the
text; plain mode checks `self.phrase_lower in text.lower()`. -/
def matchDecision (regex : Bool) (search : String → Bool)
    (phraseLower text : String) : Bool :=
  if regex then search text
  else containsSub phraseLower (pyLower text)

/-- `TraceboundScanner.scan_page`: an empty fetched body (`if not
content: return`) is skipped before any text extraction or matching. -/
def scan_page (extractText : String → String) (regex : Bool)
    (search : String → Bool) (phraseLower content : String) : Bool :=
  if content = "" then false
  else matchDecision regex search phraseLower (extractText content)

/-! ### The CrawlCoordinator (`TraceboundScanner.run`,
src/main.py lines 177-203)

`scanOutcome url` abstracts the completion of one dispatched
`scan_page(url, …)` task: `.ok true` if the task completed and appended
the URL to `self.found_urls`, `.ok false` if it completed without a
match, `.error ()` if it raised.  The `for f in
tqdm(asyncio.as_completed(tasks), …)` loop awaits every task and catches
any exception (`except Exception as e: self.logger.error(...)`). -/

/-- The await loop of `run`: collect the URLs whose scan completed with a
match; a raising scan is caught and contributes nothing, and the loop
continues with the remaining tasks. -/
def runLoop (pages : List String) (scanOutcome : String → Except Unit Bool) :
    List String :=
  match pages with
  | [] => []
  | u :: rest =>
    match scanOutcome u with
    | .error _ => runLoop rest scanOutcome
    | .ok true => u :: runLoop rest scanOutcome
    | .ok false => runLoop rest scanOutcome

/-- Observable outcome of one `run`: the page URLs dispatched for
scanning, the matched URLs collected, and whether `write_results` was
reached (it writes a result file unconditionally when called). -/
structure RunOutcome where
  dispatched : List String
  matched : List String
  fileWritten : Bool
  deriving DecidableEq

/-- `TraceboundScanner.run`: resolve the sitemaps; on an empty page-URL
set return early (src/main.py lines 187-189) before dispatching any scan
and before `write_results`; otherwise scan every page and write the
results. -/
def run (env : Env) (fuel : Nat) (base_url : String)
    (scanOutcome : String → Except Unit Bool) : Option RunOutcome :=
  match get_all_page_urls env fuel base_url with
  | none => none
  | some (_, page_urls) =>
    if page_urls = [] then some ⟨[], [], false⟩
    else some ⟨page_urls, runLoop page_urls scanOutcome, true⟩

/-! ### The semaphore discipline of the page-scan phase

`run` creates `semaphore = asyncio.Semaphore(self.concurrency)` and each
`scan_page` performs its fetch inside `async with semaphore:`
(src/main.py lines 156-159, 192-193).  The scheduling of the dispatched
tasks is modelled as a transition system over counts of tasks: `pending`
tasks have not yet acquired the semaphore, `inflight` tasks hold it (their
page fetch is in flight), `done` tasks have released it.  `sem` is the
semaphore's internal counter; an acquire transition is enabled only when
the counter is positive, exactly the blocking discipline of
`asyncio.Semaphore`. -/

/-- Scheduler state of the page-scan phase. -/
structure PoolState where
  pending : Nat
  inflight : Nat
  done : Nat
  sem : Nat
  deriving DecidableEq

/-- One scheduler step: a pending task acquires the semaphore and starts
its fetch, or an in-flight task finishes its fetch and releases the
semaphore. -/
inductive PoolStep : PoolState → PoolState → Prop where
  | acquire (s : PoolState) : 0 < s.pending → 0 < s.sem →
      PoolStep s ⟨s.pending - 1, s.inflight + 1, s.done, s.sem - 1⟩
  | release (s : PoolState) : 0 < s.inflight →
      PoolStep s ⟨s.pending, s.inflight - 1, s.done + 1, s.sem + 1⟩

/-- Initial state of a run that dispatched `n` page-scan tasks under
concurrency limit `limit`: all tasks pending, the semaphore counter at
`limit`. -/
def initState (n limit : Nat) : PoolState := ⟨n, 0, 0, limit⟩

/-- States reachable during the page-scan phase. -/
def PoolReachable (n limit : Nat) (s : PoolState) : Prop :=
  Relation.ReflTransGen PoolStep (initState n limit) s

/-! ### Concrete environments used as witnesses -/

/-- Two sitemap documents referencing each other (`sitemap.xml` lists
`sitemapb.xml` and page `p1`; `sitemapb.xml` lists `sitemap.xml` back,
closing the cycle, and page `p2`). -/
def envCycle : Env where
  fetchBody u :=
    if u = "http://e/sitemap.xml" then "XA"
    else if u = "http://e/sitemapb.xml" then "XB"
    else ""
  parseXML s :=
    if s = "XA" then .ok [some "http://e/sitemapb.xml", some "http://e/p1"]
    else if s = "XB" then .ok [some "http://e/sitemap.xml", some "http://e/p2"]
    else .error ()

/-- The URLs with documents in `envCycle`. -/
def UCycle : List String := ["http://e/sitemap.xml", "http://e/sitemapb.xml"]

/-- A sitemap whose second `<loc>` element has no text content, next to a
well-formed sibling seed. -/
def envNone : Env where
  fetchBody u :=
    if u = "http://e/sitemap.xml" then "XA"
    else if u = "http://e/sitemap_index.xml" then "XB"
    else ""
  parseXML s :=
    if s = "XA" then .ok [some "http://e/p1", none, some "http://e/p2"]
    else if s = "XB" then .ok [some "http://e/q1"]
    else .error ()

/-- An environment where every fetch fails. -/
def envEmpty : Env where
  fetchBody _ := ""
  parseXML _ := .error ()

/-- A concrete scan-outcome assignment where page "b" raises. -/
def scanOutcomeB : String → Except Unit Bool :=
  fun u => if u = "b" then .error () else .ok true


/-! ### Lemmas and claim theorems -/

/-! ### Behaviour of `fetch` -/

/-- If attempts `a, …, k-1` all fail with a network error and attempt `k`
completes with an HTTP response, the loop returns at attempt `k`: the body
for status 200, the empty string for any other status, having slept the
backoff schedule for the failed attempts only. -/
lemma fetchGo_resp (script : Nat → Attempt) (b status : Nat) (body : String) :
    ∀ left a k, a ≤ k → k - a < left →
      (∀ i, a ≤ i → i < k → script i = .netErr) → script k = .resp status body →
      fetchGo script b left a =
        ⟨if status = 200 then body else "", k - a + 1,
         (List.range' a (k - a)).map (fun i => b * 2 ^ (i - 1))⟩ := by
  intro left
  induction left with
  | zero => intro a k _ h; exact absurd h (Nat.not_lt_zero _)
  | succ n ih =>
    intro a k hak hlt herr hresp
    by_cases hka : k = a
    · subst hka
      simp only [fetchGo, hresp, Nat.sub_self]
      split <;> rfl
    · have hak' : a < k := by omega
      have hserr : script a = .netErr := herr a le_rfl hak'
      have ihk := ih (a + 1) k (by omega) (by omega)
        (fun i h1 h2 => herr i (by omega) h2) hresp
      simp only [fetchGo, hserr, ihk]
      have hsplit : k - a = (k - (a + 1)) + 1 := by omega
      rw [hsplit, List.range'_succ, List.map_cons]

/-- If every attempt fails with a network error, the loop performs all its
iterations, sleeping the backoff after every failed attempt (including the
last), and returns the empty string. -/
lemma fetchGo_allErr (script : Nat → Attempt) (b : Nat)
    (hall : ∀ i, script i = .netErr) :
    ∀ left a, fetchGo script b left a =
      ⟨"", left, (List.range' a left).map (fun i => b * 2 ^ (i - 1))⟩ := by
  intro left
  induction left with
  | zero => intro a; rfl
  | succ n ih =>
    intro a
    simp only [fetchGo, hall a, ih (a + 1), List.range'_succ, List.map_cons]

/-- Reindexing of the backoff schedule: sleeping `b * 2 ^ (i - 1)` for
attempts `i = 1, …, n` is the list `b * 2 ^ 0, …, b * 2 ^ (n - 1)`. -/
lemma range'_one_map_pow (b : Nat) :
    ∀ n, (List.range' 1 n).map (fun i => b * 2 ^ (i - 1)) =
      (List.range n).map (fun i => b * 2 ^ i) := by
  intro n
  induction n with
  | zero => rfl
  | succ m ih =>
    rw [List.range'_concat, List.range_succ, List.map_append, List.map_append, ih]
    simp

/-- Total backoff over the whole schedule: `∑ b * 2 ^ i = b * (2 ^ n - 1)`. -/
lemma sum_backoff (b : Nat) :
    ∀ n, ((List.range n).map (fun i => b * 2 ^ i)).sum = b * (2 ^ n - 1) := by
  intro n
  induction n with
  | zero => simp
  | succ m ih =>
    have h1 : 1 ≤ 2 ^ m := Nat.one_le_two_pow
    have h2 : 2 ^ (m + 1) = 2 ^ m * 2 := pow_succ 2 m
    rw [List.range_succ, List.map_append, List.sum_append, ih]
    simp only [List.map_cons, List.map_nil, List.sum_cons, List.sum_nil, Nat.add_zero]
    rw [← Nat.mul_add]
    congr 1
    omega

/-- C1 counterexample: status 204 is below 400 and is not a network-level
error, yet `fetch` returns the empty string immediately instead of the
response body — the code treats every status other than 200 as failure,
not every status below 400 as success. -/
theorem fetch_status_below_400_cex :
    204 < 400 ∧ fetch (fun _ => .resp 204 "hello") 1 3 = ⟨"", 1, []⟩ ∧
      ("hello" : String) ≠ "" :=
  ⟨by decide, rfl, by decide⟩

/-- C1 (amended): on an attempt that completes with an HTTP response,
`fetch` always returns immediately with no further attempt and no further
wait; it returns the body with ok=true only when the status is exactly
200, and the empty body (ok=false) for every other status — in particular
for every status ≥ 400, but also for statuses below 400 other than 200. -/
theorem fetch_http_status_terminal (script : Nat → Attempt) (b retries k status : Nat)
    (body : String) (hk1 : 1 ≤ k) (hk2 : k ≤ retries)
    (herr : ∀ i, 1 ≤ i → i < k → script i = .netErr)
    (hresp : script k = .resp status body) :
    fetch script b retries =
      ⟨if status = 200 then body else "", k,
       (List.range (k - 1)).map (fun i => b * 2 ^ i)⟩ := by
  unfold fetch
  rw [fetchGo_resp script b status body retries 1 k hk1 (by omega) herr hresp,
    range'_one_map_pow]
  congr 1
  omega

theorem fetch_http_status_terminal_witness :
    fetch (fun i => if i = 2 then .resp 404 "x" else .netErr) 1 3 =
      ⟨if 404 = 200 then "x" else "", 2, (List.range 1).map (fun i => 1 * 2 ^ i)⟩ :=
  fetch_http_status_terminal (fun i => if i = 2 then .resp 404 "x" else .netErr)
    1 3 2 404 "x" (by decide) (by decide)
    (fun i h1 h2 => by
      have hi : i = 1 := by omega
      subst hi
      rfl)
    rfl

/-- C2 counterexample: with maxRetries = 1 the claim predicts a total wait
of 0 (the schedule over attempts 1..0 is empty), but the code sleeps once
after the final failed attempt before returning. -/
theorem fetch_backoff_after_last_cex :
    fetch (fun _ => .netErr) 1 1 = ⟨"", 1, [1]⟩ ∧ ([1] : List Nat).sum ≠ 0 :=
  ⟨by decide, by decide⟩

/-- C2 (amended): a fetch whose every attempt fails with a network-level
error performs exactly `retries` attempts and returns the empty body
(ok=false) without propagating an exception, but it sleeps the backoff
`b * 2 ^ (attempt - 1)` after every failed attempt including the last
one, so the total wait is `b * (2 ^ retries - 1)` — the sum of the
schedule over attempts `1..retries`, not over `1..retries-1`. -/
theorem fetch_retry_exhaustion (script : Nat → Attempt) (b retries : Nat)
    (hall : ∀ i, script i = .netErr) (hr : 1 ≤ retries) :
    fetch script b retries =
      ⟨"", retries, (List.range retries).map (fun i => b * 2 ^ i)⟩ ∧
    ((List.range retries).map (fun i => b * 2 ^ i)).sum = b * (2 ^ retries - 1) := by
  refine ⟨?_, sum_backoff b retries⟩
  unfold fetch
  rw [fetchGo_allErr script b hall retries 1, range'_one_map_pow]

theorem fetch_retry_exhaustion_witness :
    (fetch (fun _ => .netErr) 1 2 =
        ⟨"", 2, (List.range 2).map (fun i => 1 * 2 ^ i)⟩ ∧
      ((List.range 2).map (fun i => 1 * 2 ^ i)).sum = 1 * (2 ^ 2 - 1)) :=
  fetch_retry_exhaustion (fun _ => .netErr) 1 2 (fun _ => rfl) (by decide)

/-! ### Invariants of the resolver -/

/-- Combining the state facts of two consecutive resolver calls (the
second starting from the first one's visit set). -/
lemma state_append {visited v1 v2 tr1 tr2 : List String}
    (h1 : visited ⊆ v1 ∧ tr1.Nodup ∧ (∀ x ∈ tr1, x ∉ visited) ∧ (∀ x ∈ tr1, x ∈ v1))
    (h2 : v1 ⊆ v2 ∧ tr2.Nodup ∧ (∀ x ∈ tr2, x ∉ v1) ∧ (∀ x ∈ tr2, x ∈ v2)) :
    visited ⊆ v2 ∧ (tr1 ++ tr2).Nodup ∧ (∀ x ∈ tr1 ++ tr2, x ∉ visited) ∧
      (∀ x ∈ tr1 ++ tr2, x ∈ v2) := by
  obtain ⟨s1, n1, ni1, i1⟩ := h1
  obtain ⟨s2, n2, ni2, i2⟩ := h2
  refine ⟨fun x hx => s2 (s1 hx), ?_, ?_, ?_⟩
  · exact List.nodup_append.mpr ⟨n1, n2, fun x hx1 hx2 => ni2 x hx2 (i1 x hx1)⟩
  · intro x hx
    rcases List.mem_append.mp hx with hx1 | hx2
    · exact ni1 x hx1
    · exact fun hv => ni2 x hx2 (s1 hv)
  · intro x hx
    rcases List.mem_append.mp hx with hx1 | hx2
    · exact s2 (i1 x hx1)
    · exact i2 x hx2

/-- State facts of one resolver call: the visit set only grows, the fetch
trace has no duplicates, every fetched URL was outside the visit set at
call entry, and every fetched URL is in the visit set afterwards.  These
hold whether the call returns normally or with a propagating exception. -/
lemma resolveStep_state (env : Env) :
    ∀ fuel visited inp v tr r,
      resolveStep env fuel visited inp = some (v, tr, r) →
      visited ⊆ v ∧ tr.Nodup ∧ (∀ x ∈ tr, x ∉ visited) ∧ (∀ x ∈ tr, x ∈ v) := by
  intro fuel
  induction fuel with
  | zero =>
    intro visited inp v tr r h
    simp [resolveStep] at h
  | succ n ih =>
    intro visited inp v tr r h
    cases inp with
    | inl url =>
      simp only [resolveStep] at h
      split at h
      · rename_i hvis
        simp only [Option.some.injEq, Prod.mk.injEq] at h
        obtain ⟨rfl, rfl, rfl⟩ := h
        exact ⟨fun x hx => hx, List.nodup_nil, by simp, by simp⟩
      · rename_i hvis
        split at h
        · simp only [Option.some.injEq, Prod.mk.injEq] at h
          obtain ⟨rfl, rfl, rfl⟩ := h
          refine ⟨fun x hx => List.mem_cons_of_mem _ hx, List.nodup_singleton _, ?_, ?_⟩
          · intro x hx
            simp only [List.mem_singleton] at hx
            subst hx
            exact hvis
          · intro x hx
            simp only [List.mem_singleton] at hx
            subst hx
            exact List.mem_cons_self _ _
        · split at h
          · simp only [Option.some.injEq, Prod.mk.injEq] at h
            obtain ⟨rfl, rfl, rfl⟩ := h
            refine ⟨fun x hx => List.mem_cons_of_mem _ hx, List.nodup_singleton _, ?_, ?_⟩
            · intro x hx
              simp only [List.mem_singleton] at hx
              subst hx
              exact hvis
            · intro x hx
              simp only [List.mem_singleton] at hx
              subst hx
              exact List.mem_cons_self _ _
          · rename_i locs heq
            split at h
            · exact Option.noConfusion h
            · rename_i v' tr' r' heq2
              simp only [Option.some.injEq, Prod.mk.injEq] at h
              obtain ⟨rfl, rfl, rfl⟩ := h
              obtain ⟨hsub, hnd, hnin, hin⟩ := ih (url :: visited) (.inr locs) v' tr' r' heq2
              refine ⟨fun x hx => hsub (List.mem_cons_of_mem _ hx), ?_, ?_, ?_⟩
              · exact List.nodup_cons.mpr
                  ⟨fun hmem => (hnin url hmem) (List.mem_cons_self _ _), hnd⟩
              · intro x hx
                rcases List.mem_cons.mp hx with rfl | hx'
                · exact hvis
                · exact fun hxv => hnin x hx' (List.mem_cons_of_mem _ hxv)
              · intro x hx
                rcases List.mem_cons.mp hx with rfl | hx'
                · exact hsub (List.mem_cons_self _ _)
                · exact hin x hx'
    | inr locs =>
      cases locs with
      | nil =>
        simp only [resolveStep, Option.some.injEq, Prod.mk.injEq] at h
        obtain ⟨rfl, rfl, rfl⟩ := h
        exact ⟨fun x hx => hx, List.nodup_nil, by simp, by simp⟩
      | cons o rest =>
        cases o with
        | none =>
          simp only [resolveStep, Option.some.injEq, Prod.mk.injEq] at h
          obtain ⟨rfl, rfl, rfl⟩ := h
          exact ⟨fun x hx => hx, List.nodup_nil, by simp, by simp⟩
        | some t =>
          simp only [resolveStep] at h
          split at h
          · split at h
            · exact Option.noConfusion h
            · rename_i v1 tr1 e heq1
              simp only [Option.some.injEq, Prod.mk.injEq] at h
              obtain ⟨rfl, rfl, rfl⟩ := h
              exact ih visited (.inl (pyStrip t)) v1 tr1 (.error e) heq1
            · rename_i v1 tr1 ps1 heq1
              split at h
              · exact Option.noConfusion h
              · rename_i v2 tr2 e heq2
                simp only [Option.some.injEq, Prod.mk.injEq] at h
                obtain ⟨rfl, rfl, rfl⟩ := h
                exact state_append (ih visited (.inl (pyStrip t)) v1 tr1 (.ok ps1) heq1)
                  (ih v1 (.inr rest) v2 tr2 (.error e) heq2)
              · rename_i v2 tr2 ps2 heq2
                simp only [Option.some.injEq, Prod.mk.injEq] at h
                obtain ⟨rfl, rfl, rfl⟩ := h
                exact state_append (ih visited (.inl (pyStrip t)) v1 tr1 (.ok ps1) heq1)
                  (ih v1 (.inr rest) v2 tr2 (.ok ps2) heq2)
          · split at h
            · exact Option.noConfusion h
            · rename_i v' tr' e heq
              simp only [Option.some.injEq, Prod.mk.injEq] at h
              obtain ⟨rfl, rfl, rfl⟩ := h
              exact ih visited (.inr rest) v' tr' (.error e) heq
            · rename_i v' tr' ps heq
              simp only [Option.some.injEq, Prod.mk.injEq] at h
              obtain ⟨rfl, rfl, rfl⟩ := h
              exact ih visited (.inr rest) v' tr' (.ok ps) heq

lemma unseen_lt (U visited : List String) (url : String)
    (hU : url ∈ U) (hv : url ∉ visited) :
    unseen U (url :: visited) < unseen U visited := by
  refine Finset.card_lt_card ?_
  have hsub : U.toFinset.filter (fun u => u ∉ url :: visited) ⊆
      U.toFinset.filter (fun u => u ∉ visited) := by
    intro x hx
    simp only [Finset.mem_filter, List.mem_cons, not_or] at hx ⊢
    exact ⟨hx.1, hx.2.2⟩
  refine (Finset.ssubset_iff_of_subset hsub).mpr ⟨url, ?_, ?_⟩
  · simp only [Finset.mem_filter, List.mem_toFinset]
    exact ⟨hU, hv⟩
  · intro hmem
    simp only [Finset.mem_filter] at hmem
    exact hmem.2 (List.mem_cons_self _ _)

lemma unseen_mono (U : List String) {visited w : List String} (h : visited ⊆ w) :
    unseen U w ≤ unseen U visited := by
  refine Finset.card_le_card ?_
  intro x hx
  simp only [Finset.mem_filter] at hx ⊢
  exact ⟨hx.1, fun hm => hx.2 (h hm)⟩

lemma unseen_le_card (U : List String) (visited : List String) :
    unseen U visited ≤ U.toFinset.card :=
  Finset.card_le_card (Finset.filter_subset _ _)

lemma le_maxLocs (env : Env) (U : List String) {u : String} (hu : u ∈ U) :
    (locsOf env u).length ≤ maxLocs env U := by
  unfold maxLocs
  induction U with
  | nil => cases hu
  | cons a rest ih =>
    simp only [List.map_cons, List.foldr_cons]
    rcases List.mem_cons.mp hu with rfl | h'
    · exact Nat.le_max_left _ _
    · exact le_trans (ih h') (Nat.le_max_right _ _)

/-- Fuel sufficiency: any resolver call whose measure is below the fuel
returns a result (models: the Python recursion terminates). -/
lemma resolveStep_isSome (env : Env) (U : List String)
    (hU : ∀ u, u ∉ U → env.fetchBody u = "") :
    ∀ fuel visited inp, measureOf env U visited inp < fuel →
      (resolveStep env fuel visited inp).isSome := by
  intro fuel
  induction fuel with
  | zero => intro visited inp h; exact absurd h (Nat.not_lt_zero _)
  | succ n ih =>
    intro visited inp hm
    cases inp with
    | inl url =>
      simp only [resolveStep]
      split
      · simp
      · rename_i hvis
        split
        · simp
        · rename_i hbody
          split
          · simp
          · rename_i locs heq
            have hurl : url ∈ U := by
              by_contra hcon
              exact hbody (hU url hcon)
            have hlt1 : unseen U (url :: visited) < unseen U visited :=
              unseen_lt U visited url hurl hvis
            have hlodef : locsOf env url = locs := by
              unfold locsOf
              rw [if_neg hbody, heq]
            have hlen : locs.length ≤ maxLocs env U := by
              rw [← hlodef]
              exact le_maxLocs env U hurl
            have hmul : (unseen U (url :: visited) + 1) * (maxLocs env U + 1) ≤
                unseen U visited * (maxLocs env U + 1) :=
              Nat.mul_le_mul_right _ hlt1
            rw [Nat.succ_mul] at hmul
            have hm2 : measureOf env U (url :: visited) (.inr locs) < n := by
              simp only [measureOf] at hm ⊢
              omega
            obtain ⟨⟨v', tr', r'⟩, hx⟩ :=
              Option.isSome_iff_exists.mp (ih (url :: visited) (.inr locs) hm2)
            simp [hx]
    | inr locs =>
      cases locs with
      | nil => simp [resolveStep]
      | cons o rest =>
        cases o with
        | none => simp [resolveStep]
        | some t =>
          simp only [resolveStep]
          split
          · have hm1 : measureOf env U visited (.inl (pyStrip t)) < n := by
              simp only [measureOf, List.length_cons] at hm ⊢
              omega
            obtain ⟨⟨v1, tr1, r1⟩, heq1⟩ :=
              Option.isSome_iff_exists.mp (ih visited (.inl (pyStrip t)) hm1)
            cases r1 with
            | error e => simp [heq1]
            | ok ps1 =>
              have hsub : visited ⊆ v1 :=
                (resolveStep_state env n visited _ v1 tr1 _ heq1).1
              have hmul : unseen U v1 * (maxLocs env U + 1) ≤
                  unseen U visited * (maxLocs env U + 1) :=
                Nat.mul_le_mul_right _ (unseen_mono U hsub)
              have hm2 : measureOf env U v1 (.inr rest) < n := by
                simp only [measureOf, List.length_cons] at hm ⊢
                omega
              obtain ⟨⟨v2, tr2, r2⟩, heq2⟩ :=
                Option.isSome_iff_exists.mp (ih v1 (.inr rest) hm2)
              cases r2 <;> simp [heq1, heq2]
          · have hm2 : measureOf env U visited (.inr rest) < n := by
              simp only [measureOf, List.length_cons] at hm ⊢
              omega
            obtain ⟨⟨v', tr', r'⟩, heq⟩ :=
              Option.isSome_iff_exists.mp (ih visited (.inr rest) hm2)
            cases r' <;> simp [heq]

lemma reaches_trans (env : Env) {a b c : String}
    (h1 : Reaches env a b) (h2 : Reaches env b c) : Reaches env a c := by
  induction h2 with
  | refl => exact h1
  | step _ hmem href ih => exact Reaches.step ih hmem href

lemma nodeLocs_of_empty (env : Env) {u : String} (h : env.fetchBody u = "") :
    nodeLocs env u = [] := by
  unfold nodeLocs locsOf
  rw [if_pos h]
  rfl

lemma nodeLocs_of_parse_error (env : Env) {u : String} {e : Unit}
    (hb : ¬env.fetchBody u = "") (h : env.parseXML (env.fetchBody u) = .error e) :
    nodeLocs env u = [] := by
  unfold nodeLocs locsOf
  rw [if_neg hb, h]
  rfl

lemma nodeLocs_of_parse_ok (env : Env) {u : String} {locs : List (Option String)}
    (hb : ¬env.fetchBody u = "") (h : env.parseXML (env.fetchBody u) = .ok locs) :
    nodeLocs env u = locs.filterMap (fun o => o.map pyStrip) := by
  unfold nodeLocs locsOf
  rw [if_neg hb, h]

/-- Under a well-formed environment, no resolver call raises. -/
lemma resolveStep_ok (env : Env) (hWF : WFEnv env) :
    ∀ fuel visited inp v tr r, OkEntries inp →
      resolveStep env fuel visited inp = some (v, tr, r) → ∃ ps, r = .ok ps := by
  intro fuel
  induction fuel with
  | zero => intro visited inp v tr r _ h; simp [resolveStep] at h
  | succ n ih =>
    intro visited inp v tr r hok h
    cases inp with
    | inl url =>
      simp only [resolveStep] at h
      split at h
      · simp only [Option.some.injEq, Prod.mk.injEq] at h
        exact ⟨[], h.2.2.symm⟩
      · split at h
        · simp only [Option.some.injEq, Prod.mk.injEq] at h
          exact ⟨[], h.2.2.symm⟩
        · split at h
          · simp only [Option.some.injEq, Prod.mk.injEq] at h
            exact ⟨[], h.2.2.symm⟩
          · rename_i locs heq
            split at h
            · exact Option.noConfusion h
            · rename_i v' tr' r' heq2
              simp only [Option.some.injEq, Prod.mk.injEq] at h
              obtain ⟨rfl, rfl, rfl⟩ := h
              exact ih (url :: visited) (.inr locs) _ _ _
                (fun o ho => hWF _ locs heq o ho) heq2
    | inr locs =>
      cases locs with
      | nil =>
        simp only [resolveStep, Option.some.injEq, Prod.mk.injEq] at h
        exact ⟨[], h.2.2.symm⟩
      | cons o rest =>
        cases o with
        | none => exact absurd rfl (hok none (List.mem_cons_self _ _))
        | some t =>
          have hokrest : OkEntries (.inr rest) :=
            fun o ho => hok o (List.mem_cons_of_mem _ ho)
          simp only [resolveStep] at h
          split at h
          · split at h
            · exact Option.noConfusion h
            · rename_i v1 tr1 e heq1
              obtain ⟨ps, hps⟩ :=
                ih visited (.inl (pyStrip t)) v1 tr1 (.error e) trivial heq1
              exact absurd hps (by simp)
            · rename_i v1 tr1 ps1 heq1
              split at h
              · exact Option.noConfusion h
              · rename_i v2 tr2 e heq2
                obtain ⟨ps, hps⟩ :=
                  ih v1 (.inr rest) v2 tr2 (.error e) hokrest heq2
                exact absurd hps (by simp)
              · rename_i v2 tr2 ps2 heq2
                simp only [Option.some.injEq, Prod.mk.injEq] at h
                exact ⟨ps1 ++ ps2, h.2.2.symm⟩
          · split at h
            · exact Option.noConfusion h
            · rename_i v' tr' e heq
              obtain ⟨ps, hps⟩ :=
                ih visited (.inr rest) v' tr' (.error e) hokrest heq
              exact absurd hps (by simp)
            · rename_i v' tr' ps heq
              simp only [Option.some.injEq, Prod.mk.injEq] at h
              exact ⟨pyStrip t :: ps, h.2.2.symm⟩

/-- Soundness: every page URL a resolver call returns is reachable. -/
lemma resolveStep_sound (env : Env) :
    ∀ fuel visited inp v tr ps,
      resolveStep env fuel visited inp = some (v, tr, .ok ps) →
      ∀ p ∈ ps, SoundAt env inp p := by
  intro fuel
  induction fuel with
  | zero => intro visited inp v tr ps h; simp [resolveStep] at h
  | succ n ih =>
    intro visited inp v tr ps h
    cases inp with
    | inl url =>
      simp only [resolveStep] at h
      split at h
      · simp only [Option.some.injEq, Prod.mk.injEq, Except.ok.injEq] at h
        rw [← h.2.2]
        intro p hp
        exact absurd hp (List.not_mem_nil p)
      · rename_i hvis
        split at h
        · simp only [Option.some.injEq, Prod.mk.injEq, Except.ok.injEq] at h
          rw [← h.2.2]
          intro p hp
          exact absurd hp (List.not_mem_nil p)
        · rename_i hbody
          split at h
          · simp only [Option.some.injEq, Prod.mk.injEq, Except.ok.injEq] at h
            rw [← h.2.2]
            intro p hp
            exact absurd hp (List.not_mem_nil p)
          · rename_i locs heq
            split at h
            · exact Option.noConfusion h
            · rename_i v' tr' r' heq2
              simp only [Option.some.injEq, Prod.mk.injEq] at h
              obtain ⟨rfl, rfl, rfl⟩ := h
              have hnode : nodeLocs env url = locs.filterMap (fun o => o.map pyStrip) :=
                nodeLocs_of_parse_ok env hbody heq
              intro p hp
              have hs := ih (url :: visited) (.inr locs) _ _ _ heq2 p hp
              rcases hs with ⟨t, htmem, hpt, hpref⟩ | ⟨t, htmem, href, w, hw, hpw, hpref⟩
              · refine ⟨url, Reaches.refl url, ?_, hpref⟩
                rw [hnode, hpt]
                exact List.mem_filterMap.mpr ⟨some t, htmem, rfl⟩
              · refine ⟨w, ?_, hpw, hpref⟩
                have hchild : Reaches env url (pyStrip t) :=
                  Reaches.step (Reaches.refl url)
                    (by rw [hnode]; exact List.mem_filterMap.mpr ⟨some t, htmem, rfl⟩) href
                exact reaches_trans env hchild hw
    | inr locs =>
      cases locs with
      | nil =>
        simp only [resolveStep, Option.some.injEq, Prod.mk.injEq, Except.ok.injEq] at h
        rw [← h.2.2]
        intro p hp
        exact absurd hp (List.not_mem_nil p)
      | cons o rest =>
        cases o with
        | none => simp [resolveStep] at h
        | some t =>
          simp only [resolveStep] at h
          split at h
          · rename_i href
            split at h
            · exact Option.noConfusion h
            · simp at h
            · rename_i v1 tr1 ps1 heq1
              split at h
              · exact Option.noConfusion h
              · simp at h
              · rename_i v2 tr2 ps2 heq2
                simp only [Option.some.injEq, Prod.mk.injEq, Except.ok.injEq] at h
                obtain ⟨rfl, rfl, rfl⟩ := h
                intro p hp
                rcases List.mem_append.mp hp with hp1 | hp2
                · exact Or.inr ⟨t, List.mem_cons_self _ _, href,
                    ih visited (.inl (pyStrip t)) v1 tr1 ps1 heq1 p hp1⟩
                · rcases ih v1 (.inr rest) _ tr2 ps2 heq2 p hp2 with
                    ⟨t', ht', hp', href'⟩ | ⟨t', ht', href', hrest⟩
                  · exact Or.inl ⟨t', List.mem_cons_of_mem _ ht', hp', href'⟩
                  · exact Or.inr ⟨t', List.mem_cons_of_mem _ ht', href', hrest⟩
          · rename_i href
            have hreffalse : sitemapRef (pyStrip t) = false := by
              simpa using href
            split at h
            · exact Option.noConfusion h
            · simp at h
            · rename_i v' tr' ps' heq
              simp only [Option.some.injEq, Prod.mk.injEq, Except.ok.injEq] at h
              obtain ⟨rfl, rfl, rfl⟩ := h
              intro p hp
              rcases List.mem_cons.mp hp with rfl | hp'
              · exact Or.inl ⟨t, List.mem_cons_self _ _, rfl, hreffalse⟩
              · rcases ih visited (.inr rest) _ tr' ps' heq p hp' with
                  ⟨t', ht', hp'', href'⟩ | ⟨t', ht', href', hrest⟩
                · exact Or.inl ⟨t', List.mem_cons_of_mem _ ht', hp'', href'⟩
                · exact Or.inr ⟨t', List.mem_cons_of_mem _ ht', href', hrest⟩

lemma ClosedIn_mono {env : Env} {V V' P P' : List String} {w : String}
    (hV : V ⊆ V') (hP : P ⊆ P') (h : ClosedIn env V P w) : ClosedIn env V' P' w :=
  ⟨fun c hc href => hV (h.1 c hc href), fun p hp href => hP (h.2 p hp href)⟩

/-- Membership in `nodeLocs` comes from a textual `<loc>` entry. -/
lemma nodeLocs_elim {env : Env} {url c : String} {locs : List (Option String)}
    (hb : ¬env.fetchBody url = "")
    (heq : env.parseXML (env.fetchBody url) = .ok locs)
    (hc : c ∈ nodeLocs env url) : ∃ t, some t ∈ locs ∧ c = pyStrip t := by
  rw [nodeLocs_of_parse_ok env hb heq] at hc
  obtain ⟨o, ho, hmap⟩ := List.mem_filterMap.mp hc
  cases o with
  | none => exact Option.noConfusion hmap
  | some t => exact ⟨t, ho, (Option.some.injEq _ _ ▸ hmap).symm⟩

/-- Completeness invariant: after a call returning normally, every URL
newly added to the visit set is closed in the final visit set and page
list, the called URL itself is visited, and every entry of a processed
`<loc>` list is accounted for. -/
lemma resolveStep_closure (env : Env) :
    ∀ fuel visited inp v tr ps,
      resolveStep env fuel visited inp = some (v, tr, .ok ps) →
      (∀ w ∈ v, w ∉ visited → ClosedIn env v ps w) ∧
      (match inp with
       | .inl url => url ∈ v
       | .inr locs => EntryClosed env v ps locs) := by
  intro fuel
  induction fuel with
  | zero => intro visited inp v tr ps h; simp [resolveStep] at h
  | succ n ih =>
    intro visited inp v tr ps h
    cases inp with
    | inl url =>
      simp only [resolveStep] at h
      split at h
      · rename_i hvis
        simp only [Option.some.injEq, Prod.mk.injEq, Except.ok.injEq] at h
        obtain ⟨rfl, -, -⟩ := h
        exact ⟨fun w hw hnw => absurd hw hnw, hvis⟩
      · rename_i hvis
        split at h
        · rename_i hbody
          simp only [Option.some.injEq, Prod.mk.injEq, Except.ok.injEq] at h
          obtain ⟨rfl, -, -⟩ := h
          refine ⟨?_, List.mem_cons_self _ _⟩
          intro w hw hnw
          have hwu : w = url := by
            rcases List.mem_cons.mp hw with rfl | hw'
            · rfl
            · exact absurd hw' hnw
          subst hwu
          rw [ClosedIn, nodeLocs_of_empty env hbody]
          exact ⟨fun c hc => absurd hc (List.not_mem_nil c),
            fun p hp => absurd hp (List.not_mem_nil p)⟩
        · rename_i hbody
          split at h
          · rename_i e heq
            simp only [Option.some.injEq, Prod.mk.injEq, Except.ok.injEq] at h
            obtain ⟨rfl, -, -⟩ := h
            refine ⟨?_, List.mem_cons_self _ _⟩
            intro w hw hnw
            have hwu : w = url := by
              rcases List.mem_cons.mp hw with rfl | hw'
              · rfl
              · exact absurd hw' hnw
            subst hwu
            rw [ClosedIn, nodeLocs_of_parse_error env hbody heq]
            exact ⟨fun c hc => absurd hc (List.not_mem_nil c),
              fun p hp => absurd hp (List.not_mem_nil p)⟩
          · rename_i locs heq
            split at h
            · exact Option.noConfusion h
            · rename_i v' tr' r' heq2
              simp only [Option.some.injEq, Prod.mk.injEq] at h
              obtain ⟨rfl, rfl, rfl⟩ := h
              obtain ⟨hcl, hentry⟩ := ih (url :: visited) (.inr locs) _ _ _ heq2
              have hsubv : url :: visited ⊆ v' :=
                (resolveStep_state env n (url :: visited) _ _ _ _ heq2).1
              refine ⟨?_, hsubv (List.mem_cons_self _ _)⟩
              intro w hw hnw
              by_cases hwu : w = url
              · subst hwu
                constructor
                · intro c hc href
                  obtain ⟨t, htmem, rfl⟩ := nodeLocs_elim hbody heq hc
                  exact (hentry t htmem).1 href
                · intro p hp href
                  obtain ⟨t, htmem, rfl⟩ := nodeLocs_elim hbody heq hp
                  exact (hentry t htmem).2 href
              · refine hcl w hw ?_
                intro hmem
                rcases List.mem_cons.mp hmem with rfl | hmem'
                · exact hwu rfl
                · exact hnw hmem'
    | inr locs =>
      cases locs with
      | nil =>
        simp only [resolveStep, Option.some.injEq, Prod.mk.injEq, Except.ok.injEq] at h
        obtain ⟨rfl, -, -⟩ := h
        exact ⟨fun w hw hnw => absurd hw hnw,
          fun t ht => absurd ht (List.not_mem_nil _)⟩
      | cons o rest =>
        cases o with
        | none => simp [resolveStep] at h
        | some t =>
          simp only [resolveStep] at h
          split at h
          · rename_i href
            split at h
            · exact Option.noConfusion h
            · simp at h
            · rename_i v1 tr1 ps1 heq1
              split at h
              · exact Option.noConfusion h
              · simp at h
              · rename_i v2 tr2 ps2 heq2
                simp only [Option.some.injEq, Prod.mk.injEq, Except.ok.injEq] at h
                obtain ⟨rfl, -, rfl⟩ := h
                obtain ⟨hcl1, hu1⟩ := ih visited (.inl (pyStrip t)) _ _ _ heq1
                obtain ⟨hcl2, hentry2⟩ := ih v1 (.inr rest) _ _ _ heq2
                have hsub12 : v1 ⊆ v2 :=
                  (resolveStep_state env n v1 _ _ _ _ heq2).1
                constructor
                · intro w hw hnw
                  by_cases hw1 : w ∈ v1
                  · exact ClosedIn_mono hsub12 (List.subset_append_left _ _)
                      (hcl1 w hw1 hnw)
                  · exact ClosedIn_mono (fun x hx => hx)
                      (List.subset_append_right _ _) (hcl2 w hw hw1)
                · intro t' ht'
                  rcases List.mem_cons.mp ht' with heqt | hrest
                  · have htt : t' = t := Option.some.injEq _ _ ▸ heqt
                    subst htt
                    refine ⟨fun _ => hsub12 hu1, fun hfalse => ?_⟩
                    rw [href] at hfalse
                    exact Bool.noConfusion hfalse
                  · obtain ⟨hv, hp⟩ := hentry2 t' hrest
                    exact ⟨hv, fun hf => List.mem_append_right _ (hp hf)⟩
          · rename_i href
            have hreffalse : sitemapRef (pyStrip t) = false := by simpa using href
            split at h
            · exact Option.noConfusion h
            · simp at h
            · rename_i v' tr' ps' heq
              simp only [Option.some.injEq, Prod.mk.injEq, Except.ok.injEq] at h
              obtain ⟨rfl, -, rfl⟩ := h
              obtain ⟨hcl, hentry⟩ := ih visited (.inr rest) _ _ _ heq
              constructor
              · intro w hw hnw
                exact ClosedIn_mono (fun x hx => hx)
                  (fun x hx => List.mem_cons_of_mem _ hx) (hcl w hw hnw)
              · intro t' ht'
                rcases List.mem_cons.mp ht' with heqt | hrest
                · have htt : t' = t := Option.some.injEq _ _ ▸ heqt
                  subst htt
                  refine ⟨fun htrue => ?_, fun _ => List.mem_cons_self _ _⟩
                  rw [hreffalse] at htrue
                  exact Bool.noConfusion htrue
                · obtain ⟨hv, hp⟩ := hentry t' hrest
                  exact ⟨hv, fun hf => List.mem_cons_of_mem _ (hp hf)⟩

/-! ### Claims about the resolver -/

/-- C3: during one crawl run every sitemap URL is fetched at most once
(the combined fetch trace of the run has no duplicates), and a URL
already present in the shared visit set is skipped without a fetch
(empty trace, empty result, visit set unchanged). -/
theorem sitemap_fetched_at_most_once :
    (∀ (env : Env) (fuel : Nat) (base_url : String) (tr pages : List String),
      get_all_page_urls env fuel base_url = some (tr, pages) → tr.Nodup) ∧
    (∀ (env : Env) (fuel : Nat) (visited : List String) (url : String),
      url ∈ visited →
      parse_sitemap env (fuel + 1) visited url = some (visited, [], .ok [])) := by
  constructor
  · intro env fuel base tr pages h
    unfold get_all_page_urls parse_sitemap at h
    rcases hx1 : resolveStep env fuel [] (.inl (base ++ "/sitemap.xml")) with
      _ | ⟨v1, tr1, r1⟩
    · rw [hx1] at h
      exact Option.noConfusion h
    · rcases hx2 : resolveStep env fuel v1 (.inl (base ++ "/sitemap_index.xml")) with
        _ | ⟨v2, tr2, r2⟩
      · simp only [hx1, hx2] at h
        exact Option.noConfusion h
      · simp only [hx1, hx2, Option.some.injEq, Prod.mk.injEq] at h
        obtain ⟨s1, n1, ni1, i1⟩ := resolveStep_state env fuel [] _ v1 tr1 r1 hx1
        obtain ⟨s2, n2, ni2, i2⟩ := resolveStep_state env fuel v1 _ v2 tr2 r2 hx2
        rw [← h.1]
        exact List.nodup_append.mpr ⟨n1, n2, fun x ha hb => ni2 x hb (i1 x ha)⟩
  · intro env fuel visited url hmem
    unfold parse_sitemap
    simp [resolveStep, hmem]

theorem sitemap_fetched_at_most_once_witness :
    get_all_page_urls envCycle 8 "http://e" =
      some (["http://e/sitemap.xml", "http://e/sitemapb.xml",
             "http://e/sitemap_index.xml"], ["http://e/p2", "http://e/p1"]) ∧
    (["http://e/sitemap.xml", "http://e/sitemapb.xml",
      "http://e/sitemap_index.xml"] : List String).Nodup ∧
    ("u" : String) ∈ ["u"] ∧
    parse_sitemap envCycle 3 ["u"] "u" = some (["u"], [], .ok []) :=
  ⟨rfl,
   sitemap_fetched_at_most_once.1 envCycle 8 "http://e" _ _ rfl,
   List.mem_cons_self _ _,
   sitemap_fetched_at_most_once.2 envCycle 2 ["u"] "u" (List.mem_cons_self _ _)⟩

/-- C4: for every finite collection of sitemap documents — cyclic
references included — resolution from the two seeds terminates (returns a
result under the sufficient fuel bound instead of recursing forever) and
the page set it returns is exactly the set of page URLs reachable from
the seeds. -/
theorem sitemap_resolution_cycle_safe (env : Env) (U : List String)
    (fuel : Nat) (base_url : String)
    (hU : ∀ u, u ∉ U → env.fetchBody u = "")
    (hWF : WFEnv env)
    (hfuel : fuelBound env U < fuel) :
    ∃ tr pages, get_all_page_urls env fuel base_url = some (tr, pages) ∧
      ∀ p, p ∈ pages ↔
        PageReachable env
          [base_url ++ "/sitemap.xml", base_url ++ "/sitemap_index.xml"] p := by
  have hcard := unseen_le_card U []
  have hmul0 : unseen U [] * (maxLocs env U + 1) ≤
      U.toFinset.card * (maxLocs env U + 1) :=
    Nat.mul_le_mul_right _ hcard
  have hm1 : measureOf env U [] (.inl (base_url ++ "/sitemap.xml")) < fuel := by
    simp only [measureOf, fuelBound] at hfuel ⊢
    omega
  obtain ⟨⟨v1, tr1, r1⟩, hx1⟩ := Option.isSome_iff_exists.mp
    (resolveStep_isSome env U hU fuel [] (.inl (base_url ++ "/sitemap.xml")) hm1)
  obtain ⟨ps1, rfl⟩ := resolveStep_ok env hWF fuel []
    (.inl (base_url ++ "/sitemap.xml")) _ _ _ trivial hx1
  have hsub01 : ([] : List String) ⊆ v1 :=
    (resolveStep_state env fuel [] _ _ _ _ hx1).1
  have hmul1 : unseen U v1 * (maxLocs env U + 1) ≤
      U.toFinset.card * (maxLocs env U + 1) :=
    Nat.mul_le_mul_right _ (le_trans (unseen_mono U hsub01) hcard)
  have hm2 : measureOf env U v1 (.inl (base_url ++ "/sitemap_index.xml")) < fuel := by
    simp only [measureOf, fuelBound] at hfuel ⊢
    omega
  obtain ⟨⟨v2, tr2, r2⟩, hx2⟩ := Option.isSome_iff_exists.mp
    (resolveStep_isSome env U hU fuel v1 (.inl (base_url ++ "/sitemap_index.xml")) hm2)
  obtain ⟨ps2, rfl⟩ := resolveStep_ok env hWF fuel v1
    (.inl (base_url ++ "/sitemap_index.xml")) _ _ _ trivial hx2
  refine ⟨tr1 ++ tr2, (ps1 ++ ps2).dedup, ?_, ?_⟩
  · unfold get_all_page_urls parse_sitemap
    simp only [hx1, hx2]
  · intro p
    constructor
    · intro hp
      rw [List.mem_dedup] at hp
      rcases List.mem_append.mp hp with hp1 | hp2
      · obtain ⟨w, hrw, hpw, hpref⟩ :=
          resolveStep_sound env fuel [] _ _ _ _ hx1 p hp1
        exact ⟨base_url ++ "/sitemap.xml", by simp, w, hrw, hpw, hpref⟩
      · obtain ⟨w, hrw, hpw, hpref⟩ :=
          resolveStep_sound env fuel v1 _ _ _ _ hx2 p hp2
        exact ⟨base_url ++ "/sitemap_index.xml", by simp, w, hrw, hpw, hpref⟩
    · rintro ⟨s, hs, w, hrw, hpw, hpref⟩
      obtain ⟨hcl1, hs1v⟩ := resolveStep_closure env fuel [] _ _ _ _ hx1
      obtain ⟨hcl2, hs2v⟩ := resolveStep_closure env fuel v1 _ _ _ _ hx2
      have hsub12 : v1 ⊆ v2 := (resolveStep_state env fuel v1 _ _ _ _ hx2).1
      have hclAll : ∀ x ∈ v2, ClosedIn env v2 (ps1 ++ ps2) x := by
        intro x hxv
        by_cases hxv1 : x ∈ v1
        · exact ClosedIn_mono hsub12 (List.subset_append_left _ _)
            (hcl1 x hxv1 (List.not_mem_nil x))
        · exact ClosedIn_mono (fun y hy => hy) (List.subset_append_right _ _)
            (hcl2 x hxv hxv1)
      have hsv2 : s ∈ v2 := by
        simp only [List.mem_cons, List.not_mem_nil, or_false] at hs
        rcases hs with rfl | rfl
        · exact hsub12 hs1v
        · exact hs2v
      have hreach_in : ∀ x, Reaches env s x → x ∈ v2 := by
        intro x hx
        induction hx with
        | refl => exact hsv2
        | step _ hmem href ihr => exact (hclAll _ ihr).1 _ hmem href
      rw [List.mem_dedup]
      exact (hclAll w (hreach_in w hrw)).2 p hpw hpref

theorem sitemap_resolution_cycle_safe_witness :
    (∀ u, u ∉ UCycle → envCycle.fetchBody u = "") ∧ WFEnv envCycle ∧
      fuelBound envCycle UCycle < 8 ∧
      (∃ tr pages, get_all_page_urls envCycle 8 "http://e" = some (tr, pages) ∧
        ∀ p, p ∈ pages ↔ PageReachable envCycle
          ["http://e" ++ "/sitemap.xml", "http://e" ++ "/sitemap_index.xml"] p) := by
  have hU : ∀ u, u ∉ UCycle → envCycle.fetchBody u = "" := by
    intro u hu
    have h1 : ¬u = "http://e/sitemap.xml" := fun h => hu (by simp [UCycle, h])
    have h2 : ¬u = "http://e/sitemapb.xml" := fun h => hu (by simp [UCycle, h])
    show (if u = "http://e/sitemap.xml" then "XA"
      else if u = "http://e/sitemapb.xml" then "XB" else "") = ""
    rw [if_neg h1, if_neg h2]
  have hWF : WFEnv envCycle := by
    intro s locs h o ho
    revert h
    show (if s = "XA" then Except.ok [some "http://e/sitemapb.xml", some "http://e/p1"]
      else if s = "XB"
        then Except.ok [some "http://e/sitemap.xml", some "http://e/p2"]
      else Except.error ()) = Except.ok locs → o ≠ none
    split
    · intro h
      cases h
      simp only [List.mem_cons] at ho
      rcases ho with rfl | rfl | ho
      · simp
      · simp
      · exact absurd ho (List.not_mem_nil _)
    · split
      · intro h
        cases h
        simp only [List.mem_cons] at ho
        rcases ho with rfl | rfl | ho
        · simp
        · simp
        · exact absurd ho (List.not_mem_nil _)
      · intro h
        exact Except.noConfusion h
  have hfuel : fuelBound envCycle UCycle < 8 := by decide
  exact ⟨hU, hWF, hfuel,
    sitemap_resolution_cycle_safe envCycle UCycle 8 "http://e" hU hWF hfuel⟩

/-- C9: a well-formed sitemap containing a `<loc>` element with no text
makes `parse_sitemap` raise (the unconditional `loc.text.strip()`), the
exception discards the page URL `p1` already collected in that seed's
branch, and it is absorbed only at the top-level gather, so the run
continues with the other seed's result `q1`. -/
theorem loc_without_text_raises :
    parse_sitemap envNone 5 [] "http://e/sitemap.xml" =
      some (["http://e/sitemap.xml"], ["http://e/sitemap.xml"], .error ()) ∧
    get_all_page_urls envNone 5 "http://e" =
      some (["http://e/sitemap.xml", "http://e/sitemap_index.xml"],
        ["http://e/q1"]) :=
  ⟨rfl, rfl⟩

/-- C10: fetch signals failure solely through an empty body — a status
200 response with empty body yields the exact same `fetch` result as a
404 failure; a page with empty fetched body is skipped and never matched,
even though the empty phrase matches the empty text; and a sitemap whose
fetch returns an empty body contributes zero page URLs. -/
theorem empty_body_indistinguishable :
    (∀ b retries, 1 ≤ retries →
      fetch (fun _ => .resp 200 "") b retries =
        fetch (fun _ => .resp 404 "x") b retries ∧
      (fetch (fun _ => .resp 200 "") b retries).body = "") ∧
    (∀ (extractText : String → String) (search : String → Bool)
      (phraseLower : String),
      scan_page extractText false search phraseLower "" = false) ∧
    containsSub "" (pyLower "") = true ∧
    (∀ (env : Env) (fuel : Nat) (visited : List String) (url : String),
      env.fetchBody url = "" → url ∉ visited →
      parse_sitemap env (fuel + 1) visited url =
        some (url :: visited, [url], .ok [])) := by
  refine ⟨?_, ?_, by decide, ?_⟩
  · intro b retries hr
    cases retries with
    | zero => omega
    | succ n => exact ⟨rfl, rfl⟩
  · intro extractText search phraseLower
    rfl
  · intro env fuel visited url hb hnv
    unfold parse_sitemap
    simp [resolveStep, hb, hnv]

theorem empty_body_indistinguishable_witness :
    (fetch (fun _ => .resp 200 "") 1 1 = fetch (fun _ => .resp 404 "x") 1 1 ∧
      (fetch (fun _ => .resp 200 "") 1 1).body = "") ∧
    scan_page id false (fun _ => true) "" "" = false ∧
    parse_sitemap envEmpty 3 [] "u" = some (["u"], ["u"], .ok []) :=
  ⟨empty_body_indistinguishable.1 1 1 (by decide),
   empty_body_indistinguishable.2.1 id (fun _ => true) "",
   empty_body_indistinguishable.2.2.2 envEmpty 2 [] "u" rfl (List.not_mem_nil _)⟩

/-- C7: if sitemap resolution yields an empty page-URL set, the run
returns early as a normal value: no page scan is dispatched, the matched
list is empty, and `write_results` is never reached. -/
theorem empty_pages_early_exit (env : Env) (fuel : Nat) (base_url : String)
    (scanOutcome : String → Except Unit Bool) (tr : List String)
    (h : get_all_page_urls env fuel base_url = some (tr, [])) :
    run env fuel base_url scanOutcome = some ⟨[], [], false⟩ := by
  simp [run, h]

theorem empty_pages_early_exit_witness :
    get_all_page_urls envEmpty 3 "http://e" =
      some (["http://e/sitemap.xml", "http://e/sitemap_index.xml"], []) ∧
    run envEmpty 3 "http://e" (fun _ => .ok true) = some ⟨[], [], false⟩ :=
  ⟨rfl, empty_pages_early_exit envEmpty 3 "http://e" (fun _ => .ok true) _ rfl⟩

/-! ### Claims about matching, failure isolation, and the concurrency
bound -/

lemma containsSub_iff (needle hay : String) :
    containsSub needle hay = true ↔ needle.data <:+: hay.data := by
  unfold containsSub
  exact decide_eq_true_iff

/-- C5: plain-phrase mode reports a match exactly when the lowercased
phrase is a substring of the lowercased text (`self.phrase_lower in
text.lower()` with `self.phrase_lower = phrase.lower()`); regex mode
reports a match exactly when the case-insensitively compiled pattern's
`search` finds a match anywhere in the text. -/
theorem scan_match_semantics (phrase text : String) (search : String → Bool) :
    (matchDecision false search (pyLower phrase) text = true ↔
      (pyLower phrase).data <:+: (pyLower text).data) ∧
    matchDecision true search (pyLower phrase) text = search text := by
  constructor
  · exact containsSub_iff (pyLower phrase) (pyLower text)
  · rfl

lemma runLoop_cons (a : String) (rest : List String)
    (f : String → Except Unit Bool) :
    runLoop (a :: rest) f =
      match f a with
      | .error _ => runLoop rest f
      | .ok true => a :: runLoop rest f
      | .ok false => runLoop rest f := rfl

/-- Membership in the collected match list of the await loop. -/
lemma mem_runLoop {pages : List String} {f : String → Except Unit Bool}
    {u : String} :
    u ∈ runLoop pages f ↔ u ∈ pages ∧ f u = .ok true := by
  induction pages with
  | nil => simp [runLoop]
  | cons a rest ih =>
    simp only [runLoop]
    cases hf : f a with
    | error e =>
      constructor
      · intro h
        obtain ⟨hm, ho⟩ := ih.mp h
        exact ⟨List.mem_cons_of_mem _ hm, ho⟩
      · rintro ⟨hm, ho⟩
        rcases List.mem_cons.mp hm with rfl | hm'
        · rw [hf] at ho
          exact Except.noConfusion ho
        · exact ih.mpr ⟨hm', ho⟩
    | ok b =>
      cases b with
      | false =>
        constructor
        · intro h
          obtain ⟨hm, ho⟩ := ih.mp h
          exact ⟨List.mem_cons_of_mem _ hm, ho⟩
        · rintro ⟨hm, ho⟩
          rcases List.mem_cons.mp hm with rfl | hm'
          · rw [hf] at ho
            simp at ho
          · exact ih.mpr ⟨hm', ho⟩
      | true =>
        constructor
        · intro h
          rcases List.mem_cons.mp h with rfl | h'
          · exact ⟨List.mem_cons_self _ _, hf⟩
          · obtain ⟨hm, ho⟩ := ih.mp h'
            exact ⟨List.mem_cons_of_mem _ hm, ho⟩
        · rintro ⟨hm, ho⟩
          rcases List.mem_cons.mp hm with rfl | hm'
          · exact List.mem_cons_self _ _
          · exact List.mem_cons_of_mem _ (ih.mpr ⟨hm', ho⟩)

/-- C6: a scan that raises is caught at the coordinator's await loop and
treated as a non-match: the failing page never appears in the match
list, the results of all other pages are exactly as if the failing page
had not been dispatched, and the loop still processes every dispatched
page (its result collects precisely the pages whose scan completed with
a match). -/
theorem scan_failure_isolated (f : String → Except Unit Bool)
    (l r : List String) (e : String) (he : f e = .error ()) :
    runLoop (l ++ e :: r) f = runLoop (l ++ r) f ∧
    e ∉ runLoop (l ++ e :: r) f ∧
    (∀ u, u ∈ runLoop (l ++ e :: r) f ↔ u ∈ l ++ r ∧ f u = .ok true) := by
  refine ⟨?_, ?_, ?_⟩
  · induction l with
    | nil =>
      simp only [List.nil_append]
      rw [runLoop_cons, he]
    | cons a rest ih =>
      simp only [List.cons_append]
      rw [runLoop_cons, runLoop_cons]
      cases hf : f a with
      | error e2 => exact ih
      | ok b =>
        cases b with
        | false => exact ih
        | true => exact congrArg (fun x => a :: x) ih
  · intro hmem
    obtain ⟨-, ho⟩ := mem_runLoop.mp hmem
    rw [he] at ho
    exact Except.noConfusion ho
  · intro u
    rw [mem_runLoop]
    constructor
    · rintro ⟨hm, ho⟩
      refine ⟨?_, ho⟩
      rcases List.mem_append.mp hm with h1 | h2
      · exact List.mem_append_left _ h1
      · rcases List.mem_cons.mp h2 with rfl | h3
        · rw [he] at ho
          exact Except.noConfusion ho
        · exact List.mem_append_right _ h3
    · rintro ⟨hm, ho⟩
      refine ⟨?_, ho⟩
      rcases List.mem_append.mp hm with h1 | h2
      · exact List.mem_append_left _ h1
      · exact List.mem_append_right _ (List.mem_cons_of_mem _ h2)

theorem scan_failure_isolated_witness :
    scanOutcomeB "b" = .error () ∧
    (runLoop (["a"] ++ "b" :: ["c"]) scanOutcomeB =
        runLoop (["a"] ++ ["c"]) scanOutcomeB ∧
      "b" ∉ runLoop (["a"] ++ "b" :: ["c"]) scanOutcomeB ∧
      (∀ u, u ∈ runLoop (["a"] ++ "b" :: ["c"]) scanOutcomeB ↔
        u ∈ ["a"] ++ ["c"] ∧ scanOutcomeB u = .ok true)) :=
  ⟨rfl, scan_failure_isolated scanOutcomeB ["a"] ["c"] "b" rfl⟩

/-- The semaphore preserves `inflight + sem = limit` along every step. -/
lemma pool_invariant (n limit : Nat) :
    ∀ s, PoolReachable n limit s → s.inflight + s.sem = limit := by
  intro s h
  induction h with
  | refl => simp [initState]
  | tail _ hbc ih =>
    cases hbc with
    | acquire hp hs =>
      dsimp only
      omega
    | release hi =>
      dsimp only
      omega

/-- C8: at every moment during the page-scan phase, the number of
simultaneously in-flight page fetches never exceeds the configured
concurrency limit, regardless of how many page URLs were dispatched. -/
theorem concurrency_bound_invariant (n limit : Nat) (s : PoolState)
    (h : PoolReachable n limit s) : s.inflight ≤ limit := by
  have hinv := pool_invariant n limit s h
  omega

theorem concurrency_bound_invariant_witness :
    PoolReachable 3 2 ⟨1, 2, 0, 0⟩ ∧ (⟨1, 2, 0, 0⟩ : PoolState).inflight ≤ 2 := by
  have h1 : PoolStep (initState 3 2) ⟨2, 1, 0, 1⟩ :=
    PoolStep.acquire (initState 3 2) (by decide) (by decide)
  have h2 : PoolStep (⟨2, 1, 0, 1⟩ : PoolState) ⟨1, 2, 0, 0⟩ :=
    PoolStep.acquire ⟨2, 1, 0, 1⟩ (by decide) (by decide)
  have hreach : PoolReachable 3 2 ⟨1, 2, 0, 0⟩ :=
    Relation.ReflTransGen.tail
      (Relation.ReflTransGen.tail Relation.ReflTransGen.refl h1) h2
  exact ⟨hreach, concurrency_bound_invariant 3 2 ⟨1, 2, 0, 0⟩ hreach⟩

end Tracebound
